import Mathlib

/-!
# Verification of `chemical_reaction_balancer.py`

A shallow embedding of the chemical reaction balancer:

* `parse_compound`   embeds `parse_compound` (regex scan + dict comprehension);
* `parse_reaction`   embeds `parse_reaction` (split on `->`, then on `+`, strip);
* `get_elements`     embeds `get_elements` (sorted set of element symbols);
* `build_matrix`     embeds `build_matrix` (per-element conservation rows);
* `simplify_coefficients` embeds `simplify_coefficients` (LCM scaling, GCD reduction);
* `sympyNullspace`   models the third-party `sympy.Matrix.nullspace` call
  (not part of the repository source) from the specification of the exact
  null-space solver: rational RREF, one basis vector per free column, the
  free variable set to 1;
* `balance_reaction` embeds `balance_reaction` (the orchestrator), returning
  the structured result (coefficients paired with the compound strings in
  input order) rather than the final formatted string.

Machine arithmetic does not occur: Python ints/Fractions are ℤ/ℚ.

The Batteries definitions of the ℚ field operations are `@[irreducible]`,
which blocks `decide` on concrete rational computations; we restore the
default reducibility locally (the kernel ignores reducibility attributes,
so proofs are unaffected).
-/

attribute [local semireducible] Rat.add Rat.mul Rat.inv Rat.sub

namespace ChemBalancer

/-! ## Formula parser: `re.findall on pattern ([A-Z][a-z]*)(\d*) over the compound`

The regex is embedded as a left-to-right scanner.  A match begins at an
ASCII uppercase letter, takes a maximal (greedy) run of ASCII lowercase
letters, then a maximal (possibly empty) run of digits; characters that
cannot start or continue a match are skipped, exactly as `re.findall`
skips positions where the pattern does not match.  (`[A-Z]`, `[a-z]` are
ASCII classes; `\d` is modelled as ASCII digits, which coincides with
Python on all ASCII input.) -/

/-- The regex character class `[A-Z]`. -/
def isUpperAZ (c : Char) : Bool := 'A' ≤ c && c ≤ 'Z'

/-- The regex character class `[a-z]`. -/
def isLowerAZ (c : Char) : Bool := 'a' ≤ c && c ≤ 'z'

/-- The regex character class `\d`, on ASCII input. -/
def isDigit09 (c : Char) : Bool := '0' ≤ c && c ≤ '9'

/-- Scanner state: outside a match, inside the `[A-Z][a-z]*` part (symbol
characters collected in reverse), or inside the `\d*` part. -/
inductive ScanState where
  | idle
  | inLower (sym : List Char)
  | inDigit (sym digs : List Char)

/-- Finish one regex match: group 1 (the element symbol) and group 2 (the
digit string, possibly empty). -/
def emitMatch (sym digs : List Char) : String × String :=
  (String.mk sym.reverse, String.mk digs.reverse)

/-- One pass over the characters, producing the matches of
`([A-Z][a-z]*)(\d*)` in order. -/
def scan : List Char → ScanState → List (String × String)
  | [], .idle => []
  | [], .inLower sym => [emitMatch sym []]
  | [], .inDigit sym digs => [emitMatch sym digs]
  | c :: cs, .idle =>
      if isUpperAZ c then scan cs (.inLower [c]) else scan cs .idle
  | c :: cs, .inLower sym =>
      if isLowerAZ c then scan cs (.inLower (c :: sym))
      else if isDigit09 c then scan cs (.inDigit sym [c])
      else if isUpperAZ c then emitMatch sym [] :: scan cs (.inLower [c])
      else emitMatch sym [] :: scan cs .idle
  | c :: cs, .inDigit sym digs =>
      if isDigit09 c then scan cs (.inDigit sym (c :: digs))
      else if isUpperAZ c then emitMatch sym digs :: scan cs (.inLower [c])
      else emitMatch sym digs :: scan cs .idle

/-- `re.findall on pattern ([A-Z][a-z]*)(\d*) over s`. -/
def findallElements (s : String) : List (String × String) := scan s.data .idle

/-- Python `int` applied to a nonempty string of ASCII digits. -/
def digitsToNat (s : String) : Nat :=
  s.data.foldl (fun n c => 10 * n + (c.toNat - '0'.toNat)) 0

/-- Insertion into a Python dict, as performed by a dict comprehension:
a repeated key keeps its original position but its value is OVERWRITTEN
by the later binding; a fresh key is appended. -/
def dictInsert (d : List (String × Nat)) (k : String) (v : Nat) :
    List (String × Nat) :=
  if d.any (fun p => p.1 == k) then
    d.map (fun p => if p.1 == k then (k, v) else p)
  else d ++ [(k, v)]

/-- Python `dict.get(k, dflt)`. -/
def dictGet (d : List (String × Nat)) (k : String) (dflt : Nat) : Nat :=
  match d.find? (fun p => p.1 == k) with
  | some p => p.2
  | none => dflt

/-- `parse_compound`: the dict comprehension
`{element: int(count) if count else 1 for element, count in elements}`. -/
def parse_compound (compound : String) : List (String × Nat) :=
  (findallElements compound).foldl
    (fun d m => dictInsert d m.1 (if m.2 = "" then 1 else digitsToNat m.2)) []

/-! ## Reaction parser -/

/-- Python `str.split("->")`: split on every non-overlapping occurrence of
the two-character arrow, scanning left to right, keeping empty pieces. -/
def splitArrow : List Char → List (List Char)
  | [] => [[]]
  | '-' :: '>' :: rest => [] :: splitArrow rest
  | c :: rest =>
    match splitArrow rest with
    | [] => [[c]]
    | p :: ps => (c :: p) :: ps

/-- The characters stripped by Python `str.strip()` (ASCII whitespace). -/
def pyIsSpace (c : Char) : Bool :=
  c == ' ' || c == '\t' || c == '\n' || c == '\r' || c == '\x0b' || c == '\x0c'

/-- Python `str.strip()`. -/
def pyStrip (l : List Char) : String :=
  String.mk (((l.dropWhile pyIsSpace).reverse.dropWhile pyIsSpace).reverse)

/-- `parse_reaction`: `left, right = reaction.split("->")` succeeds exactly
when the split yields two pieces (otherwise Python raises `ValueError`,
caught and turned into `(None, None)`); each side is then split on `+`
and every token stripped.  No emptiness check is performed. -/
def parse_reaction (reaction : String) : Option (List String × List String) :=
  match splitArrow reaction.data with
  | [left, right] =>
      some ((left.splitOn '+').map pyStrip, (right.splitOn '+').map pyStrip)
  | _ => none

/-! ## Element universe -/

/-- Python `<` on `str`: lexicographic comparison of the code-point
sequences. -/
def strLt : List Char → List Char → Bool
  | _, [] => false
  | [], _ :: _ => true
  | a :: as, b :: bs => if a = b then strLt as bs else decide (a < b)

/-- Insertion into a lexicographically sorted list of strings. -/
def insertSorted (s : String) : List String → List String
  | [] => [s]
  | t :: ts => if strLt s.data t.data then s :: t :: ts else t :: insertSorted s ts

/-- `get_elements`: `sorted(set of all keys)`.  The union of the key sets
is deduplicated and sorted lexicographically (Python `sorted` on strings). -/
def get_elements (reactants products : List String) : List String :=
  (((reactants ++ products).flatMap
      (fun compound => (parse_compound compound).map Prod.fst)).dedup).foldr
    insertSorted []

/-! ## Conservation matrix -/

/-- `parse_compound(compound).get(element, 0)`. -/
def elemCount (element compound : String) : Nat :=
  dictGet (parse_compound compound) element 0

/-- `build_matrix`: one row per element; reactant columns carry the atom
count, product columns the negated atom count. -/
def build_matrix (reactants products elements : List String) : List (List ℚ) :=
  elements.map (fun element =>
    reactants.map (fun compound => (elemCount element compound : ℚ))
      ++ products.map (fun compound => -(elemCount element compound : ℚ)))

/-! ## Coefficient normalizer -/

/-- The `lcm` helper inside `simplify_coefficients`: `abs(a*b)//gcd(a,b)`
(on positive naturals; this is `Nat.lcm` definitionally). -/
def pyLcm (a b : Nat) : Nat := a * b / Nat.gcd a b

/-- Python `int(...)` on an exact Fraction: truncation toward zero. -/
def ratTrunc (q : ℚ) : ℤ := q.num.tdiv (q.den : ℤ)

/-- `scale_factor = reduce(lcm, [abs(f.denominator) for f in coefficients], 1)`
(denominators of `Fraction`s are already positive). -/
def scale_factor (coefficients : List ℚ) : Nat :=
  (coefficients.map (fun f => f.den)).foldl pyLcm 1

/-- `scaled_coeffs = [int(c * scale_factor) for c in coefficients]`. -/
def scaled_coeffs (coefficients : List ℚ) : List ℤ :=
  coefficients.map (fun c => ratTrunc (c * (scale_factor coefficients : ℚ)))

/-- Python `reduce(gcd, l)` with no initializer: the head of the list seeds
the fold, so a singleton list is returned unchanged (possibly negative),
while `math.gcd` itself is never negative.  On `[]` Python raises
`TypeError`; we return 0 (that case is unreachable on the success path). -/
def gcdReduce : List ℤ → ℤ
  | [] => 0
  | a :: rest => rest.foldl (fun g x => ((Int.gcd g x : ℕ) : ℤ)) a

/-- `simplify_coefficients`: clear denominators with the LCM, divide by the
GCD (`//` is Python floor division, hence `Int.fdiv`).  When every entry is
zero Python raises `ZeroDivisionError`; the embedding divides by 0 by
convention (also unreachable on the success path). -/
def simplify_coefficients (coefficients : List ℚ) : List ℤ :=
  (scaled_coeffs coefficients).map
    (fun c => c.fdiv (gcdReduce (scaled_coeffs coefficients)))

/-! ## Exact null-space solver

Modelled from the spec: the repository delegates to the third-party
`sympy.Matrix.nullspace`, whose source is not part of the repository.
Following §4.5 of the specification it is modelled as exact rational
Gaussian elimination to reduced row-echelon form, with one basis vector
per free (pivot-less) column: that free variable is set to 1, all other
free variables to 0, and each pivot variable to the negated RREF entry in
the free column. -/

/-- Matrix entry with out-of-range defaulting (never hit on well-formed
input). -/
def entryAt (rows : List (List ℚ)) (i j : Nat) : ℚ := (rows.getD i []).getD j 0

/-- Modelled from the spec: find the first row at index ≥ `r` with a
nonzero entry in column `c`. -/
def findPivotIdx (rows : List (List ℚ)) (r c : Nat) : Option Nat :=
  (List.range rows.length).find?
    (fun i => decide (r ≤ i) && decide (entryAt rows i c ≠ 0))

/-- Modelled from the spec: swap rows `r` and `i`. -/
def swapRows (rows : List (List ℚ)) (r i : Nat) : List (List ℚ) :=
  (rows.set r (rows.getD i [])).set i (rows.getD r [])

/-- Modelled from the spec: normalize row `r` by its pivot in column `c`
and eliminate column `c` from every other row (full reduction). -/
def elimStep (rows : List (List ℚ)) (r c : Nat) : List (List ℚ) :=
  let pivRow := (rows.getD r []).map (fun x => x / entryAt rows r c)
  (List.range rows.length).map (fun k =>
    if k = r then pivRow
    else List.zipWith (fun a b => a - entryAt rows k c * b) (rows.getD k []) pivRow)

/-- Modelled from the spec: process the columns left to right, tracking the
next pivot row and the pivot columns found so far. -/
def rrefGo : List Nat → Nat → List (List ℚ) → List Nat →
    List (List ℚ) × List Nat
  | [], _, rows, pivots => (rows, pivots)
  | c :: cs, r, rows, pivots =>
    match findPivotIdx rows r c with
    | none => rrefGo cs r rows pivots
    | some i => rrefGo cs (r + 1) (elimStep (swapRows rows r i) r c) (pivots ++ [c])

/-- Modelled from the spec: reduced row-echelon form and pivot columns. -/
def rref (rows : List (List ℚ)) (ncols : Nat) : List (List ℚ) × List Nat :=
  rrefGo (List.range ncols) 0 rows []

/-- Modelled from the spec: null-space basis, one vector per free column. -/
def nullspaceBasis (rows : List (List ℚ)) (ncols : Nat) : List (List ℚ) :=
  let rp := rref rows ncols
  ((List.range ncols).filter (fun j => !(rp.2.contains j))).map (fun fv =>
    (List.range ncols).map (fun j =>
      if j = fv then 1
      else if rp.2.contains j then -(entryAt rp.1 (rp.2.indexOf j) fv) else 0))

/-- Modelled from the spec: `sympy.Matrix(matrix).nullspace()`.  A matrix
built from an empty row list is 0×0 (`Matrix([])`), whose null space is
empty; otherwise the column count is the length of the first row. -/
def sympyNullspace (rows : List (List ℚ)) : List (List ℚ) :=
  match rows with
  | [] => []
  | r :: _ => nullspaceBasis rows r.length

/-! ## Orchestrator -/

/-- Result of `balance_reaction`, structurally: the two error strings of the
source become tags, and the formatted success string is represented by the
coefficient lists paired with the compound strings in input order (the
source interpolates exactly these into the output string). -/
inductive BalanceResult where
  | invalidFormat
  | cannotBalance
  | balanced (reactantCoeffs : List ℤ) (reactants : List String)
      (productCoeffs : List ℤ) (products : List String)
  deriving DecidableEq

/-- `balance_reaction`: parse, build the matrix over the sorted element
universe, take the first null-space basis vector (error if none),
normalize it, and split the coefficients at `len(reactants)`. -/
def balance_reaction (reaction : String) : BalanceResult :=
  match parse_reaction reaction with
  | none => .invalidFormat
  | some (reactants, products) =>
    let elements := get_elements reactants products
    let matrix := build_matrix reactants products elements
    match sympyNullspace matrix with
    | [] => .cannotBalance
    | v :: _ =>
      let coefficients := simplify_coefficients v
      .balanced (coefficients.take reactants.length) reactants
        (coefficients.drop reactants.length) products

/-! ## Derived notions used by the statements -/

/-- Dot product of a matrix row with a vector (pairwise products, summed). -/
def dotProd : List ℚ → List ℚ → ℚ
  | a :: as, b :: bs => a * b + dotProd as bs
  | _, _ => 0

/-- `Σ coefficient_i · (count of element e in compound_i)`, the per-element
total of one side of a reaction. -/
def elemTotal (e : String) : List ℤ → List String → ℚ
  | c :: cs, compound :: compounds =>
      (c : ℚ) * (elemCount e compound : ℚ) + elemTotal e cs compounds
  | _, _ => 0

/-- GCD of a list of integers (as a set, order-independently). -/
def gcdList (l : List ℤ) : Nat := l.foldr (fun x g => Nat.gcd x.natAbs g) 0

/-! ## Lemmas about the scanner -/

/-- On input without any `[A-Z]` character, the scan started outside a
match never enters a match and produces nothing. -/
lemma scan_no_upper : ∀ (l : List Char), (∀ c ∈ l, isUpperAZ c = false) →
    scan l .idle = [] := by
  intro l
  induction l with
  | nil => intro _; rfl
  | cons c cs ih =>
      intro h
      have hc := h c (List.mem_cons_self c cs)
      simp only [scan, hc, Bool.false_eq_true, if_false]
      exact ih (fun d hd => h d (List.mem_cons_of_mem c hd))

/-- A trailing character that can neither start nor continue a match is
skipped: it does not change the list of matches. -/
lemma scan_append_invalid (c : Char) (hu : isUpperAZ c = false)
    (hl : isLowerAZ c = false) (hd : isDigit09 c = false) :
    ∀ (l : List Char) (st : ScanState), scan (l ++ [c]) st = scan l st := by
  intro l
  induction l with
  | nil =>
      intro st
      cases st <;> simp [scan, hu, hl, hd]
  | cons a as ih =>
      intro st
      cases st <;> simp only [List.cons_append, scan] <;> split_ifs <;>
        simp [ih]

/-! ## Claims about the formula parser -/

/-- Claim C10: `parse_compound` is total; on a string containing no
uppercase letter every character is silently skipped and the result is the
empty mapping (no error is raised on any input). -/
theorem c10_no_upper_yields_empty (s : String)
    (h : ∀ c ∈ s.data, isUpperAZ c = false) : parse_compound s = [] := by
  unfold parse_compound findallElements
  rw [scan_no_upper s.data h]
  rfl

/-- Witness for C10 at the concrete input "x2y+!" (digits, lowercase
letters and punctuation, no uppercase letter). -/
theorem c10_witness : parse_compound "x2y+!" = [] :=
  c10_no_upper_yields_empty "x2y+!" (by decide)

/-- Claim C2 (counter-evaluation): on "H2OH3" the symbol `H` matches twice
(counts 2 and 3); the dict comprehension keeps only the LAST matched count,
`H ↦ 3`, not the sum `H ↦ 5` required by the specification. -/
theorem c2_duplicate_symbol_overwrites :
    parse_compound "H2OH3" = [("H", 3), ("O", 1)] := by decide

/-- Claim C5 (counterexample): inputs with no valid element token, or with
characters outside `[A-Za-z0-9]`, do NOT fail: the parser returns a
(possibly empty) mapping. -/
theorem c5_counterexample :
    parse_compound "h2!" = [] ∧ parse_compound "H2O!x" = [("H", 2), ("O", 1)] := by
  decide

/-- Claim C5 as amended: `parse_compound` never fails; a character that can
neither start nor continue an element token (in particular any character
outside `[A-Za-z0-9]`) is silently skipped — appending it to any input
leaves the parse unchanged. -/
theorem c5_amended_invalid_char_skipped (s : String) (c : Char)
    (hu : isUpperAZ c = false) (hl : isLowerAZ c = false)
    (hd : isDigit09 c = false) :
    parse_compound (s.push c) = parse_compound s := by
  unfold parse_compound findallElements
  rw [String.data_push, scan_append_invalid c hu hl hd]

/-- Witness for the amended C5 at the concrete input "H2O" with '!'. -/
theorem c5_witness : parse_compound ("H2O".push '!') = parse_compound "H2O" :=
  c5_amended_invalid_char_skipped "H2O" '!' (by decide) (by decide) (by decide)

/-- Claim C9 (counterexample): the invariant "every key maps to a count
≥ 1" fails: an explicit zero count, as in "H0", is stored as the value 0. -/
theorem c9_counterexample : ¬ (∀ p ∈ parse_compound "H0", 1 ≤ p.2) := by
  decide

/-- `dictInsert` preserves a lower bound on the stored values. -/
lemma dictInsert_bound (d : List (String × Nat)) (k : String) (v : Nat)
    (hd : ∀ p ∈ d, 1 ≤ p.2) (hv : 1 ≤ v) :
    ∀ p ∈ dictInsert d k v, 1 ≤ p.2 := by
  intro p hp
  unfold dictInsert at hp
  split at hp
  · rcases List.mem_map.mp hp with ⟨q, hq, hpq⟩
    by_cases h : q.1 == k
    · simp only [h, if_true] at hpq
      exact hpq ▸ hv
    · simp only [h, if_false] at hpq
      exact hpq ▸ hd q hq
  · rcases List.mem_append.mp hp with h | h
    · exact hd p h
    · rcases List.mem_singleton.mp h with rfl
      exact hv

/-- The fold building the dictionary preserves the lower bound, provided
every match contributes a value ≥ 1. -/
lemma parse_fold_bound :
    ∀ (ms : List (String × String)) (d : List (String × Nat)),
      (∀ p ∈ d, 1 ≤ p.2) →
      (∀ m ∈ ms, m.2 = "" ∨ 1 ≤ digitsToNat m.2) →
      ∀ p ∈ ms.foldl
        (fun d m => dictInsert d m.1 (if m.2 = "" then 1 else digitsToNat m.2)) d,
        1 ≤ p.2 := by
  intro ms
  induction ms with
  | nil => intro d hd _ p hp; exact hd p hp
  | cons m ms ih =>
      intro d hd hm p hp
      refine ih _ ?_ (fun x hx => hm x (List.mem_cons_of_mem m hx)) p hp
      apply dictInsert_bound _ _ _ hd
      rcases hm m (List.mem_cons_self m ms) with h | h
      · simp [h]
      · rcases eq_or_ne m.2 "" with h2 | h2 <;> simp [h2, h]

/-- Claim C9 as amended: every key of the returned mapping carries the
count of its LAST match — 1 for an empty digit string, else the digit-string
value — so every value is ≥ 1 PROVIDED no match carries an explicit zero
count (an input such as "H0" stores the value 0). -/
theorem c9_amended_values_positive (s : String) (k : String) (v : Nat)
    (h : ∀ m ∈ findallElements s, m.2 ≠ "" → 1 ≤ digitsToNat m.2)
    (hmem : (k, v) ∈ parse_compound s) : 1 ≤ v := by
  have := parse_fold_bound (findallElements s) [] (by intro p hp; cases hp)
    (fun m hm => by
      rcases eq_or_ne m.2 "" with h2 | h2
      · exact Or.inl h2
      · exact Or.inr (h m hm h2))
    (k, v)
  exact this hmem

/-- Witness for the amended C9 at the concrete input "H2O", key "H". -/
theorem c9_witness : ("H", 2) ∈ parse_compound "H2O" ∧ 1 ≤ 2 :=
  ⟨by decide, c9_amended_values_positive "H2O" "H" 2 (by decide) (by decide)⟩

/-! ## Claims about the reaction parser -/

/-- Claim C6 (counterexample): a reaction whose reactant side is empty is
NOT rejected — the empty side is returned as the one-token list [""]. -/
theorem c6_counterexample : parse_reaction "-> H2O" = some ([""], ["H2O"]) := by
  decide

/-- Claim C6 as amended: `parse_reaction` fails exactly when splitting on
the arrow yields a number of pieces different from two (arrow absent, or
present more than once); a side without any non-empty compound token is
not detected and is returned as a list of (possibly empty) tokens. -/
theorem c6_amended_failure_iff_arrow_count (s : String) :
    parse_reaction s = none ↔ (splitArrow s.data).length ≠ 2 := by
  unfold parse_reaction
  rcases h : splitArrow s.data with _ | ⟨a, _ | ⟨b, _ | ⟨c, l⟩⟩⟩ <;> simp

/-! ## Claims about the orchestrator -/

/-- Claim C7: balancing "H2 + O2 -> H2O" succeeds with reactant
coefficients [2, 1] and product coefficient [2], the compound strings being
preserved verbatim in input order. -/
theorem c7_balance_H2_O2 :
    balance_reaction "H2 + O2 -> H2O"
      = BalanceResult.balanced [2, 1] ["H2", "O2"] [2] ["H2O"] := by decide

/-! ## Algebra of the coefficient normalizer -/

/-- The seed and every listed denominator divide the `lcm` fold. -/
lemma foldl_lcm_dvd : ∀ (l : List ℕ) (a : ℕ),
    a ∣ l.foldl pyLcm a ∧ ∀ d ∈ l, d ∣ l.foldl pyLcm a := by
  intro l
  induction l with
  | nil => exact fun a => ⟨dvd_refl a, by simp⟩
  | cons d l ih =>
      intro a
      simp only [List.foldl_cons]
      refine ⟨dvd_trans (Nat.dvd_lcm_left a d) (ih (pyLcm a d)).1, ?_⟩
      intro x hx
      rcases List.mem_cons.mp hx with rfl | hx
      · exact dvd_trans (Nat.dvd_lcm_right a x) (ih (pyLcm a x)).1
      · exact (ih (pyLcm a d)).2 x hx

/-- The `lcm` fold of positive numbers from a positive seed is positive. -/
lemma foldl_lcm_pos : ∀ (l : List ℕ) (a : ℕ), 0 < a → (∀ d ∈ l, 0 < d) →
    0 < l.foldl pyLcm a := by
  intro l
  induction l with
  | nil => exact fun a ha _ => ha
  | cons d l ih =>
      intro a ha h
      simp only [List.foldl_cons]
      exact ih (pyLcm a d) (Nat.lcm_pos ha (h d (List.mem_cons_self d l)))
        (fun x hx => h x (List.mem_cons_of_mem d hx))

/-- The scale factor is positive (denominators of reduced fractions are). -/
lemma scale_factor_pos (v : List ℚ) : 0 < scale_factor v := by
  apply foldl_lcm_pos _ 1 Nat.one_pos
  intro d hd
  rcases List.mem_map.mp hd with ⟨q, _, rfl⟩
  exact Nat.pos_of_ne_zero q.den_nz

/-- The denominator of each entry divides the scale factor. -/
lemma den_dvd_scale_factor (v : List ℚ) (c : ℚ) (hc : c ∈ v) :
    c.den ∣ scale_factor v := by
  unfold scale_factor
  exact (foldl_lcm_dvd (v.map (fun f => f.den)) 1).2 c.den
    (List.mem_map_of_mem (fun f => f.den) hc)

/-- Truncation of an integer-valued rational is exact. -/
lemma ratTrunc_intCast (m : ℤ) : ratTrunc ((m : ℤ) : ℚ) = m := by
  unfold ratTrunc
  rw [Rat.num_intCast, Rat.den_intCast, Nat.cast_one]
  exact Int.tdiv_one m

/-- `q · q.den = q.num` in ℚ. -/
lemma mul_den_eq_num (q : ℚ) : q * (q.den : ℚ) = (q.num : ℚ) := by
  have hden : ((q.den : ℚ)) ≠ 0 := Nat.cast_ne_zero.mpr q.den_nz
  nth_rewrite 1 [← Rat.num_div_den q]
  exact div_mul_cancel₀ _ hden

/-- Clearing denominators is exact: the scaled entries, read back in ℚ,
are the original entries times the scale factor. -/
lemma scaled_coeffs_cast (v : List ℚ) (c : ℚ) (hc : c ∈ v) :
    ((ratTrunc (c * (scale_factor v : ℚ))) : ℚ) = c * (scale_factor v : ℚ) := by
  rcases den_dvd_scale_factor v c hc with ⟨t, ht⟩
  have h1 : c * (scale_factor v : ℚ) = ((c.num * t : ℤ) : ℚ) := by
    rw [ht]
    push_cast
    rw [← mul_assoc, mul_den_eq_num]
  rw [h1, ratTrunc_intCast]

/-- The gcd fold divides its seed and every listed entry. -/
lemma foldl_gcd_dvd : ∀ (l : List ℤ) (a : ℤ),
    (l.foldl (fun g x => ((Int.gcd g x : ℕ) : ℤ)) a) ∣ a ∧
      ∀ x ∈ l, (l.foldl (fun g x => ((Int.gcd g x : ℕ) : ℤ)) a) ∣ x := by
  intro l
  induction l with
  | nil => exact fun a => ⟨dvd_refl a, by simp⟩
  | cons x l ih =>
      intro a
      simp only [List.foldl_cons]
      refine ⟨dvd_trans (ih _).1 Int.gcd_dvd_left, ?_⟩
      intro y hy
      rcases List.mem_cons.mp hy with rfl | hy
      · exact dvd_trans (ih _).1 Int.gcd_dvd_right
      · exact (ih _).2 y hy

/-- If the gcd fold is zero, the seed and all entries are zero. -/
lemma foldl_gcd_eq_zero : ∀ (l : List ℤ) (a : ℤ),
    l.foldl (fun g x => ((Int.gcd g x : ℕ) : ℤ)) a = 0 →
    a = 0 ∧ ∀ x ∈ l, x = 0 := by
  intro l
  induction l with
  | nil => exact fun a h => ⟨h, by simp⟩
  | cons x l ih =>
      intro a h
      simp only [List.foldl_cons] at h
      obtain ⟨hax, hl⟩ := ih _ h
      have hg : Int.gcd a x = 0 := by exact_mod_cast hax
      obtain ⟨ha, hx⟩ := Int.gcd_eq_zero_iff.mp hg
      refine ⟨ha, fun y hy => ?_⟩
      rcases List.mem_cons.mp hy with rfl | hy
      · exact hx
      · exact hl y hy

/-- Once the fold has absorbed at least one entry its value is a cast
natural, hence nonnegative. -/
lemma foldl_gcd_nonneg : ∀ (l : List ℤ) (g : ℕ),
    0 ≤ l.foldl (fun g x => ((Int.gcd g x : ℕ) : ℤ)) ((g : ℕ) : ℤ) := by
  intro l
  induction l with
  | nil => intro g; exact Int.natCast_nonneg g
  | cons x l ih =>
      intro g
      simp only [List.foldl_cons]
      exact ih (Int.gcd ((g : ℕ) : ℤ) x)

/-- `gcdReduce` divides every entry of its argument. -/
lemma gcdReduce_dvd (l : List ℤ) : ∀ x ∈ l, gcdReduce l ∣ x := by
  intro x hx
  cases l with
  | nil => cases hx
  | cons a rest =>
      show rest.foldl _ a ∣ x
      rcases List.mem_cons.mp hx with rfl | hx
      · exact (foldl_gcd_dvd rest x).1
      · exact (foldl_gcd_dvd rest a).2 x hx

/-- If `gcdReduce` is zero then every entry is zero. -/
lemma gcdReduce_eq_zero (l : List ℤ) (h : gcdReduce l = 0) :
    ∀ x ∈ l, x = 0 := by
  intro x hx
  cases l with
  | nil => cases hx
  | cons a rest =>
      obtain ⟨ha, hrest⟩ := foldl_gcd_eq_zero rest a h
      rcases List.mem_cons.mp hx with rfl | hx
      · exact ha
      · exact hrest x hx

/-- `gcdReduce` of a list with at least two entries is nonnegative
(Python `reduce(gcd, ...)` applies `math.gcd` at least once). -/
lemma gcdReduce_nonneg (l : List ℤ) (h : 2 ≤ l.length) : 0 ≤ gcdReduce l := by
  match l, h with
  | a :: x :: rest, _ =>
      show 0 ≤ (x :: rest).foldl _ a
      simp only [List.foldl_cons]
      exact foldl_gcd_nonneg rest (Int.gcd a x)

/-- A nonzero entry of `v` survives scaling, so the gcd of the scaled
entries is nonzero. -/
lemma gcdReduce_scaled_ne_zero (v : List ℚ) (hv : ∃ x ∈ v, x ≠ 0) :
    gcdReduce (scaled_coeffs v) ≠ 0 := by
  obtain ⟨x, hx, hxne⟩ := hv
  have hL : ((scale_factor v : ℕ) : ℚ) ≠ 0 :=
    Nat.cast_ne_zero.mpr (Nat.pos_iff_ne_zero.mp (scale_factor_pos v))
  have hs : ((ratTrunc (x * (scale_factor v : ℚ))) : ℚ)
      = x * (scale_factor v : ℚ) := scaled_coeffs_cast v x hx
  have hmem : ratTrunc (x * (scale_factor v : ℚ)) ∈ scaled_coeffs v :=
    List.mem_map_of_mem _ hx
  intro h0
  have hz : ratTrunc (x * (scale_factor v : ℚ)) = 0 :=
    gcdReduce_eq_zero _ h0 _ hmem
  rw [hz] at hs
  exact mul_ne_zero hxne hL (by exact_mod_cast hs.symm)

/-- The normalizer, read back in ℚ, multiplies every entry of its input by
the fixed rational `scale_factor v / gcdReduce (scaled_coeffs v)`. -/
lemma simplify_coefficients_cast (v : List ℚ)
    (hG : gcdReduce (scaled_coeffs v) ≠ 0) :
    (simplify_coefficients v).map (fun z : ℤ => (z : ℚ))
      = v.map (fun x =>
          ((scale_factor v : ℚ) / ((gcdReduce (scaled_coeffs v) : ℤ) : ℚ)) * x) := by
  have hGQ : ((gcdReduce (scaled_coeffs v) : ℤ) : ℚ) ≠ 0 := Int.cast_ne_zero.mpr hG
  have key : ∀ c ∈ v,
      (((ratTrunc (c * (scale_factor v : ℚ))).fdiv (gcdReduce (scaled_coeffs v)) : ℤ) : ℚ)
        = ((scale_factor v : ℚ) / ((gcdReduce (scaled_coeffs v) : ℤ) : ℚ)) * c := by
    intro c hc
    have hmem : ratTrunc (c * (scale_factor v : ℚ)) ∈ scaled_coeffs v :=
      List.mem_map_of_mem _ hc
    rcases gcdReduce_dvd _ _ hmem with ⟨m, hm⟩
    rw [hm, Int.mul_fdiv_cancel_left m hG]
    have hs := scaled_coeffs_cast v c hc
    rw [hm] at hs
    push_cast at hs
    rw [div_mul_eq_mul_div, eq_div_iff hGQ]
    linear_combination hs
  calc (simplify_coefficients v).map (fun z : ℤ => (z : ℚ))
      = v.map (fun c =>
          (((ratTrunc (c * (scale_factor v : ℚ))).fdiv
            (gcdReduce (scaled_coeffs v)) : ℤ) : ℚ)) := by
        unfold simplify_coefficients scaled_coeffs
        rw [List.map_map, List.map_map]
        rfl
    _ = _ := List.map_congr_left key

/-- The normalizer output is a nonzero rational multiple of its input; with
at least two entries the multiplier is positive (so signs pass through). -/
lemma simplify_scale_spec (v : List ℚ) (hv : ∃ x ∈ v, x ≠ 0) :
    ∃ k : ℚ, k ≠ 0 ∧ (2 ≤ v.length → 0 < k) ∧
      (simplify_coefficients v).map (fun z : ℤ => (z : ℚ))
        = v.map (fun x => k * x) := by
  have hG : gcdReduce (scaled_coeffs v) ≠ 0 := gcdReduce_scaled_ne_zero v hv
  have hGQ : ((gcdReduce (scaled_coeffs v) : ℤ) : ℚ) ≠ 0 := Int.cast_ne_zero.mpr hG
  have hLQ : (0 : ℚ) < (scale_factor v : ℚ) := by exact_mod_cast scale_factor_pos v
  refine ⟨(scale_factor v : ℚ) / ((gcdReduce (scaled_coeffs v) : ℤ) : ℚ),
    div_ne_zero (ne_of_gt hLQ) hGQ, ?_, simplify_coefficients_cast v hG⟩
  intro hlen
  have h2 : 2 ≤ (scaled_coeffs v).length := by
    unfold scaled_coeffs
    rw [List.length_map]
    exact hlen
  have hGpos : 0 < gcdReduce (scaled_coeffs v) :=
    lt_of_le_of_ne (gcdReduce_nonneg _ h2) (Ne.symm hG)
  exact div_pos hLQ (by exact_mod_cast hGpos)

/-- Claim C3 (counterexample): normalization does NOT fail on a null-space
vector with a negative entry — `simplify_coefficients` returns it unchanged
— and the orchestrator consequently returns a "successfully balanced"
reaction containing the negative coefficient -1 (input "A + AB -> B"). -/
theorem c3_counterexample :
    simplify_coefficients [-1, 1, 1] = [-1, 1, 1] ∧
      balance_reaction "A + AB -> B"
        = BalanceResult.balanced [-1, 1] ["A", "AB"] [1] ["B"] := by decide

/-- Claim C3 as amended: `simplify_coefficients` contains no positivity or
zero check and cannot fail; it returns a fixed nonzero rational multiple of
its input (positive whenever there are at least two entries), so zero or
negative null-space entries pass through, with their sign, into the
returned coefficients. -/
theorem c3_amended_no_positivity_check (v : List ℚ) (hv : ∃ x ∈ v, x ≠ 0) :
    ∃ k : ℚ, k ≠ 0 ∧ (2 ≤ v.length → 0 < k) ∧
      (simplify_coefficients v).map (fun z : ℤ => (z : ℚ))
        = v.map (fun x => k * x) :=
  simplify_scale_spec v hv

/-- Witness for the amended C3 at the concrete vector [-1, 1, 1]. -/
theorem c3_witness :
    ∃ k : ℚ, k ≠ 0 ∧ (2 ≤ ([(-1 : ℚ), 1, 1]).length → 0 < k) ∧
      (simplify_coefficients [-1, 1, 1]).map (fun z : ℤ => (z : ℚ))
        = ([(-1 : ℚ), 1, 1]).map (fun x => k * x) :=
  c3_amended_no_positivity_check [-1, 1, 1] (by decide)

/-! ## Minimality (gcd = 1) -/

lemma gcdList_cons (a : ℤ) (l : List ℤ) :
    gcdList (a :: l) = Nat.gcd a.natAbs (gcdList l) := rfl

/-- `natAbs` of the gcd fold is the order-independent gcd of seed and
entries. -/
lemma foldl_gcd_natAbs : ∀ (l : List ℤ) (a : ℤ),
    (l.foldl (fun g x => ((Int.gcd g x : ℕ) : ℤ)) a).natAbs
      = Nat.gcd a.natAbs (gcdList l) := by
  intro l
  induction l with
  | nil => intro a; simp [gcdList]
  | cons x l ih =>
      intro a
      simp only [List.foldl_cons]
      rw [ih]
      simp only [Int.natAbs_ofNat]
      rw [gcdList_cons, ← Nat.gcd_assoc]
      rfl

lemma gcdReduce_natAbs (l : List ℤ) : (gcdReduce l).natAbs = gcdList l := by
  cases l with
  | nil => rfl
  | cons a rest =>
      unfold gcdReduce
      rw [foldl_gcd_natAbs, gcdList_cons]

/-- Dividing a list by an exact common divisor `G` divides its gcd by
`|G|`. -/
lemma gcdList_map_fdiv (G : ℤ) (hG : G ≠ 0) :
    ∀ (l : List ℤ), (∀ x ∈ l, G ∣ x) →
      gcdList (l.map (fun x => x.fdiv G)) * G.natAbs = gcdList l := by
  intro l
  induction l with
  | nil => intro _; simp [gcdList]
  | cons a l ih =>
      intro h
      rcases h a (List.mem_cons_self a l) with ⟨m, hm⟩
      simp only [List.map_cons, gcdList_cons]
      rw [← Nat.gcd_mul_right]
      congr 1
      · rw [hm, Int.mul_fdiv_cancel_left m hG, ← Int.natAbs_mul, mul_comm]
      · exact ih (fun x hx => h x (List.mem_cons_of_mem a hx))

/-- Claim C4: on every rational vector with at least one nonzero entry, the
normalizer returns integer coefficients whose collective gcd is 1. -/
theorem c4_gcd_of_result_eq_one (v : List ℚ) (hv : ∃ x ∈ v, x ≠ 0) :
    gcdList (simplify_coefficients v) = 1 := by
  have hG : gcdReduce (scaled_coeffs v) ≠ 0 := gcdReduce_scaled_ne_zero v hv
  have h1 : gcdList ((scaled_coeffs v).map
        (fun x => x.fdiv (gcdReduce (scaled_coeffs v))))
        * (gcdReduce (scaled_coeffs v)).natAbs
      = gcdList (scaled_coeffs v) :=
    gcdList_map_fdiv _ hG _ (gcdReduce_dvd _)
  rw [gcdReduce_natAbs] at h1
  have hpos : 0 < gcdList (scaled_coeffs v) := by
    rw [← gcdReduce_natAbs]
    exact Int.natAbs_pos.mpr hG
  have hdef : gcdList (simplify_coefficients v)
      = gcdList ((scaled_coeffs v).map
          (fun x => x.fdiv (gcdReduce (scaled_coeffs v)))) := rfl
  rw [hdef]
  exact Nat.eq_of_mul_eq_mul_right hpos (by rw [h1, one_mul])

/-- Witness for C4 at the concrete vector [1, 1/2, 1] (coefficients
[2, 1, 2]). -/
theorem c4_witness : gcdList (simplify_coefficients [1, 1/2, 1]) = 1 :=
  c4_gcd_of_result_eq_one [1, 1/2, 1] (by decide)

/-! ## Conservation -/

lemma dotProd_nil_right (A : List ℚ) : dotProd A [] = 0 := by
  cases A <;> rfl

/-- Splitting a dot product at the boundary of a concatenated row. -/
lemma dotProd_append (B : List ℚ) : ∀ (A v : List ℚ), A.length ≤ v.length →
    dotProd (A ++ B) v
      = dotProd A (v.take A.length) + dotProd B (v.drop A.length) := by
  intro A
  induction A with
  | nil => intro v _; simp [dotProd]
  | cons a A ih =>
      intro v h
      cases v with
      | nil =>
          simp only [List.length_cons, List.length_nil] at h
          omega
      | cons x v =>
          simp only [List.cons_append, List.length_cons, List.take_succ_cons,
            List.drop_succ_cons]
          show a * x + dotProd (A ++ B) v
              = a * x + dotProd A (v.take A.length) + dotProd B (v.drop A.length)
          rw [ih v (by simpa using h)]
          ring

/-- A side total with coefficients that are `k` times a vector `w` is `k`
times the dot product of the count row with `w`. -/
lemma elemTotal_eq_scaled (e : String) (k : ℚ) :
    ∀ (C : List ℤ) (w : List ℚ) (l : List String),
      C.map (fun z : ℤ => (z : ℚ)) = w.map (fun x => k * x) →
      elemTotal e C l
        = k * dotProd (l.map (fun compound => (elemCount e compound : ℚ))) w := by
  intro C
  induction C with
  | nil =>
      intro w l h
      have hw : w = [] := by
        cases w with
        | nil => rfl
        | cons x w => simp at h
      subst hw
      rw [dotProd_nil_right]
      cases l <;> simp [elemTotal]
  | cons c C ih =>
      intro w l h
      cases w with
      | nil => simp at h
      | cons x w =>
          simp only [List.map_cons, List.cons.injEq] at h
          obtain ⟨hcx, hrest⟩ := h
          cases l with
          | nil =>
              show (0 : ℚ) = k * dotProd [] (x :: w)
              simp [dotProd]
          | cons compound l =>
              show (c : ℚ) * (elemCount e compound : ℚ) + elemTotal e C l
                  = k * ((elemCount e compound : ℚ) * x
                      + dotProd (l.map (fun compound => (elemCount e compound : ℚ))) w)
              rw [ih w l hrest, hcx]
              ring

/-- Negating a count row negates the dot product. -/
lemma dotProd_map_neg (f : String → ℚ) :
    ∀ (l : List String) (w : List ℚ),
      dotProd (l.map (fun compound => -(f compound))) w
        = -dotProd (l.map f) w := by
  intro l
  induction l with
  | nil => intro w; simp [dotProd]
  | cons compound l ih =>
      intro w
      cases w with
      | nil => simp [dotProd_nil_right]
      | cons x w =>
          show -(f compound) * x
                + dotProd (l.map (fun compound => -(f compound))) w
              = -((f compound) * x + dotProd (l.map f) w)
          rw [ih w]
          ring

/-- Claim C1: on the success path the orchestrator normalizes a null-space
vector `v` of the conservation matrix (so `row · v = 0` for every row, `v`
nonzero, one entry per compound) and splits the result at
`len(reactants)`; for every element of the universe the reactant-side
total then equals the product-side total. -/
theorem c1_conservation (reactants products : List String) (v : List ℚ)
    (hlen : v.length = reactants.length + products.length)
    (hv : ∃ x ∈ v, x ≠ 0)
    (hnull : ∀ row ∈ build_matrix reactants products
        (get_elements reactants products), dotProd row v = 0)
    (e : String) (he : e ∈ get_elements reactants products) :
    elemTotal e ((simplify_coefficients v).take reactants.length) reactants
      = elemTotal e ((simplify_coefficients v).drop reactants.length) products := by
  obtain ⟨k, _, _, hmap⟩ := simplify_scale_spec v hv
  have hrow : (reactants.map (fun compound => (elemCount e compound : ℚ))
        ++ products.map (fun compound => -(elemCount e compound : ℚ)))
      ∈ build_matrix reactants products (get_elements reactants products) :=
    List.mem_map_of_mem _ he
  have h0 := hnull _ hrow
  have hA_len : (reactants.map
      (fun compound => (elemCount e compound : ℚ))).length
      = reactants.length := by simp
  rw [dotProd_append _ _ _ (by rw [hA_len, hlen]; omega)] at h0
  rw [hA_len, dotProd_map_neg] at h0
  have htake : ((simplify_coefficients v).take reactants.length).map
        (fun z : ℤ => (z : ℚ))
      = (v.take reactants.length).map (fun x => k * x) := by
    rw [List.map_take, hmap, List.map_take]
  have hdrop : ((simplify_coefficients v).drop reactants.length).map
        (fun z : ℤ => (z : ℚ))
      = (v.drop reactants.length).map (fun x => k * x) := by
    rw [List.map_drop, hmap, List.map_drop]
  rw [elemTotal_eq_scaled e k _ _ reactants htake,
    elemTotal_eq_scaled e k _ _ products hdrop]
  have heq : dotProd (reactants.map
        (fun compound => (elemCount e compound : ℚ))) (v.take reactants.length)
      = dotProd (products.map
        (fun compound => (elemCount e compound : ℚ))) (v.drop reactants.length) := by
    linarith [h0]
  rw [heq]

/-- Witness for C1: the reaction H2 + O2 -> H2O with the null-space vector
[1, 1/2, 1] and the element "H". -/
theorem c1_witness :
    elemTotal "H" ((simplify_coefficients [1, 1/2, 1]).take 2) ["H2", "O2"]
      = elemTotal "H" ((simplify_coefficients [1, 1/2, 1]).drop 2) ["H2O"] :=
  c1_conservation ["H2", "O2"] ["H2O"] [1, 1/2, 1] (by decide) (by decide)
    (by decide) "H" (by decide)

/-! ## Null-space branching of the orchestrator -/

/-- Claim C8: once parsing succeeds, an empty null-space basis makes the
orchestrator fail with the cannot-balance error and no coefficients are
produced; a non-empty basis makes it proceed with the FIRST basis vector,
whose normalization is split at `len(reactants)`. -/
theorem c8_nullspace_branches (s : String) (reactants products : List String)
    (hparse : parse_reaction s = some (reactants, products)) :
    (sympyNullspace (build_matrix reactants products
        (get_elements reactants products)) = []
      → balance_reaction s = BalanceResult.cannotBalance) ∧
    (∀ w ws, sympyNullspace (build_matrix reactants products
        (get_elements reactants products)) = w :: ws
      → balance_reaction s = BalanceResult.balanced
          ((simplify_coefficients w).take reactants.length) reactants
          ((simplify_coefficients w).drop reactants.length) products) := by
  constructor
  · intro h
    unfold balance_reaction
    rw [hparse]
    simp only [h]
  · intro w ws h
    unfold balance_reaction
    rw [hparse]
    simp only [h]

/-- Witness for C8: "H2 -> O2" parses, its conservation matrix has full
column rank (empty basis), and balancing fails. -/
theorem c8_witness : balance_reaction "H2 -> O2" = BalanceResult.cannotBalance :=
  (c8_nullspace_branches "H2 -> O2" ["H2"] ["O2"] (by decide)).1 (by decide)

end ChemBalancer
